import Mathlib

/-!
Verification development for the postcss-plugin-webp stylesheet transform.

The embedding models the plugin in `src/plugin.ts`:
strings are lists of characters, the two global case-insensitive regex
replacements of the default `rename` are modelled by fuel-based scanners
(`replaceExtGo`, `replaceMimeGo`), JS `String.replace` with a string pattern
(first occurrence only) is `replaceFirst`, JS `String.includes` is
`includesSub`, and the per-rule visit hook / `OnceExit` insertion phase are
`visitRule` / `transformRoot`.
-/

namespace WebpPlugin

/-- Strings are modelled as lists of characters. -/
abbrev Str := List Char

/-- Coerce a Lean string literal to the character-list model. -/
def str (s : String) : Str := s.data

/-- Lower-casing of a single character, as used for case-insensitive regex
matching (the patterns are ASCII). -/
def lc (c : Char) : Char := c.toLower

/-- Case-insensitive prefix test: does the (lowercase) pattern match at the
head of the text? -/
def ciStarts : Str → Str → Bool
  | [], _ => true
  | _ :: _, [] => false
  | p :: ps, c :: cs => (lc c == p) && ciStarts ps cs

/-- The extension alternatives of the regex `\.(jpe?g|png|gif|avif)` in the
order the JS engine tries them (greedy `e?` first). -/
def extPats : List Str :=
  [['.', 'j', 'p', 'e', 'g'], ['.', 'j', 'p', 'g'], ['.', 'p', 'n', 'g'],
   ['.', 'g', 'i', 'f'], ['.', 'a', 'v', 'i', 'f']]

/-- The replacement text `.webp` of the extension substitution. -/
def webpExt : Str := ['.', 'w', 'e', 'b', 'p']

/-- The alternatives of the regex `image\/(jpeg|png|gif|avif)`. -/
def mimePats : List Str :=
  [['i', 'm', 'a', 'g', 'e', '/', 'j', 'p', 'e', 'g'],
   ['i', 'm', 'a', 'g', 'e', '/', 'p', 'n', 'g'],
   ['i', 'm', 'a', 'g', 'e', '/', 'g', 'i', 'f'],
   ['i', 'm', 'a', 'g', 'e', '/', 'a', 'v', 'i', 'f']]

/-- The replacement text `image/webp` of the MIME substitution. -/
def mimeWebp : Str := ['i', 'm', 'a', 'g', 'e', '/', 'w', 'e', 'b', 'p']

/-- Does any of the alternatives match anywhere in the string (regex
`test`)? -/
def hasOcc (pats : List Str) : Str → Bool
  | [] => false
  | c :: cs => pats.any (fun p => ciStarts p (c :: cs)) || hasOcc pats cs

/-- Does the extension regex match anywhere in the string?  This is the
default `predicate` of the plugin: `/\.(jpe?g|png|gif|avif)/i.test(value)`. -/
def hasExtOcc (s : Str) : Bool := hasOcc extPats s

/-- Does the MIME regex match anywhere in the string? -/
def hasMimeOcc (s : Str) : Bool := hasOcc mimePats s

/-- Fuel-based scanner of a global regex replacement: at each position the
leftmost alternative that matches is consumed and replaced by `repl`,
otherwise one character is copied.  The fuel dominates the length of the
string. -/
def scanGo (pats : List Str) (repl : Str) : Nat → Str → Str
  | _, [] => []
  | 0, c :: cs => c :: cs
  | f + 1, c :: cs =>
    match pats.find? (fun p => ciStarts p (c :: cs)) with
    | some p => repl ++ scanGo pats repl f (cs.drop (p.length - 1))
    | none => c :: scanGo pats repl f cs

/-- The extension substitution of the default `rename`:
`value.replace(/\.(jpe?g|png|gif|avif)/gi, ".webp")`. -/
def replaceExt (s : Str) : Str := scanGo extPats webpExt s.length s

/-- The MIME substitution of the default `rename`:
`.replace(/image\/(jpeg|png|gif|avif)/gi, "image/webp")`. -/
def replaceMime (s : Str) : Str := scanGo mimePats mimeWebp s.length s

/-- The default `rename` of the plugin: extension substitution followed by
MIME substitution. -/
def renameDefault (v : Str) : Str := replaceMime (replaceExt v)

/-- JS `String.prototype.replace` with a string pattern: replaces the first
occurrence only; if the pattern does not occur the string is unchanged. -/
def replaceFirst (pat repl : Str) : Str → Str
  | [] => if pat.isEmpty then repl else []
  | c :: cs =>
    if pat.isPrefixOf (c :: cs) then repl ++ (c :: cs).drop pat.length
    else c :: replaceFirst pat repl cs

/-- JS `String.prototype.includes`: substring test. -/
def includesSub (pat : Str) : Str → Bool
  | [] => pat.isEmpty
  | c :: cs => pat.isPrefixOf (c :: cs) || includesSub pat cs

/-- Number of (possibly overlapping) occurrences of a pattern, used to state
the marker-count properties. -/
def countSub (pat : Str) : Str → Nat
  | [] => 0
  | c :: cs => (if pat.isPrefixOf (c :: cs) then 1 else 0) + countSub pat cs

/-- The literal `html`. -/
def htmlStr : Str := ['h', 't', 'm', 'l']

/-- The literal `:root`. -/
def rootStr : Str := [':', 'r', 'o', 'o', 't']

/-- The marker-class text: `.<name>`, or `:global(.<name>)` when the modules
option is set (line 92 of plugin.ts). -/
def markerOf (modules : Bool) (cls : Str) : Str :=
  if modules then str ":global(." ++ cls ++ [')'] else '.' :: cls

/-- The strip step of `transformSelectors` (line 95 of plugin.ts): remove the
first occurrence of the marker text, then the first occurrence of `:root`. -/
def stripOnce (m sel : Str) : Str := replaceFirst rootStr [] (replaceFirst m [] sel)

/-- The html-insertion step of `transformSelectors` (lines 96-103): put the
marker after the first `html` if present, else prepend `html<marker>` as an
ancestor, else return the bare `html<marker>`. -/
def placeMarker (m s : Str) : Str :=
  if includesSub htmlStr s then replaceFirst htmlStr (htmlStr ++ m) s
  else if s.isEmpty then htmlStr ++ m
  else htmlStr ++ m ++ ' ' :: s

/-- The per-selector transformation of `transformSelectors`. -/
def transformSelector (m sel : Str) : Str := placeMarker m (stripOnce m sel)

/-- The function `transformSelectors(selectors, className)` of plugin.ts. -/
def transformSelectors (modules : Bool) (cls : Str) (sels : List Str) : List Str :=
  sels.map (transformSelector (markerOf modules cls))

/-- A CSS declaration: property name and value. -/
structure Decl where
  prop : Str
  value : Str
deriving DecidableEq, Repr

/-- A style rule: ordered selector list and ordered declaration list. -/
structure StyleRule where
  selectors : List Str
  decls : List Decl
deriving DecidableEq, Repr

/-- The plugin options, with the defaults of plugin.ts (lines 69-82). -/
structure Options where
  predicate : Decl → Bool := fun d => hasExtOcc d.value
  rename : Decl → Str := fun d => renameDefault d.value
  noWebpClass : Str := str "no-webp"
  webpClass : Str := str "webp"
  noJsClass : Str := str "no-js"
  addNoJs : Bool := false
  modules : Bool := false

/-- The options object produced by calling the plugin factory with no
options. -/
def defaultOptions : Options := {}

/-- Joining of a selector list into the rule's selector string (postcss joins
with a comma and a space). -/
def joinSels : List Str → Str
  | [] => []
  | [s] => s
  | s :: s' :: ss => s ++ ',' :: ' ' :: joinSels (s' :: ss)

/-- The full selector string of a rule, read by the re-entrancy guard. -/
def selectorStr (r : StyleRule) : Str := joinSels r.selectors

/-- The per-rule visit hook (plugin.ts lines 114-167).  Returns the rule as
left in the tree together with the fallback (no-webp) and capable (webp)
variant rules recorded in the two maps, if produced. -/
def visitRule (o : Options) (r : StyleRule) :
    StyleRule × Option StyleRule × Option StyleRule :=
  if includesSub ('.' :: o.noWebpClass) (selectorStr r) then (r, none, none)
  else
    let matched := r.decls.filter (fun d => o.predicate d)
    let kept := r.decls.filter (fun d => !(o.predicate d))
    let noWebpRule : Option StyleRule :=
      if matched.isEmpty then none
      else some
        { selectors :=
            transformSelectors o.modules o.noWebpClass r.selectors ++
              (if o.addNoJs then transformSelectors o.modules o.noJsClass r.selectors else []),
          decls := matched }
    let webpRule : Option StyleRule :=
      if matched.isEmpty then none
      else some
        { selectors := transformSelectors o.modules o.webpClass r.selectors,
          decls := matched.map (fun d => { prop := d.prop, value := o.rename d }) }
    ({ r with decls := kept }, noWebpRule, webpRule)

/-- A document node: a rule tagged with the identity of the original rule it
came from (`some i` for the i-th original rule, `none` for inserted variant
rules, which are never anchors). -/
abbrev Node := Option Nat × StyleRule

/-- The result of visiting one rule. -/
abbrev Triple := StyleRule × Option StyleRule × Option StyleRule

/-- postcss `node.after(x)`: insert `x` as the immediate next sibling of the
node with identity `i`. -/
def insertAfterId (i : Nat) (x : StyleRule) : List Node → List Node
  | [] => []
  | n :: ns => if n.1 = some i then n :: ((none : Option Nat), x) :: ns
               else n :: insertAfterId i x ns

/-- The document after the walk phase: each original rule (as stripped by the
visit hook) tagged with its identity, numbered from `k`. -/
def docOf : Nat → List Triple → List Node
  | _, [] => []
  | k, t :: ts => (some k, t.1) :: docOf (k + 1) ts

/-- One optional map entry. -/
def optPair (k : Nat) : Option StyleRule → List (Nat × StyleRule)
  | some r => [(k, r)]
  | none => []

/-- A variant map in walk order, keyed by rule identity, selecting one of the
two variant components of each visit result. -/
def varMapOf (pick : Triple → Option StyleRule) : Nat → List Triple → List (Nat × StyleRule)
  | _, [] => []
  | k, t :: ts => optPair k (pick t) ++ varMapOf pick (k + 1) ts

/-- The fallback (no-webp) variant map in walk order. -/
def nMapOf : Nat → List Triple → List (Nat × StyleRule) :=
  varMapOf (fun t => t.2.1)

/-- The capable (webp) variant map in walk order. -/
def wMapOf : Nat → List Triple → List (Nat × StyleRule) :=
  varMapOf (fun t => t.2.2)

/-- One insertion loop of `OnceExit`: drain a map, inserting each variant
immediately after its original rule. -/
def insPhase (ps : List (Nat × StyleRule)) (d : List Node) : List Node :=
  ps.foldl (fun d p => insertAfterId p.1 p.2 d) d

/-- The whole transform on a flat document: walk every rule with the visit
hook, then run `OnceExit` (first the no-webp map, then the webp map). -/
def transformRoot (o : Options) (rules : List StyleRule) : List StyleRule :=
  let ts := rules.map (visitRule o)
  (insPhase (wMapOf 0 ts) (insPhase (nMapOf 0 ts) (docOf 0 ts))).map Prod.snd

/-- The per-rule sibling block actually produced by the transform:
stripped original, capable variant (if any), fallback variant (if any). -/
def ruleBlock (o : Options) (r : StyleRule) : List StyleRule :=
  (visitRule o r).1 :: ((visitRule o r).2.2.toList ++ (visitRule o r).2.1.toList)

/-- Nodes of an optional variant rule. -/
def optNodes : Option StyleRule → List Node :=
  fun x => x.toList.map (fun r => ((none : Option Nat), r))

/-- Node-level per-rule blocks, numbered from `k`. -/
def nodesBlocks : Nat → List Triple → List Node
  | _, [] => []
  | k, t :: ts =>
    (some k, t.1) :: (optNodes t.2.2 ++ optNodes t.2.1) ++ nodesBlocks (k + 1) ts

/-- Modelled from the spec: removal of *every* occurrence of a pattern
(claim of section 4.2 of the spec, "strip any pre-existing occurrence ...");
fuel-based scanner used only for comparison against the code's
first-occurrence `replaceFirst`. -/
def removeAllGo : Nat → Str → Str → Str
  | _, _, [] => []
  | 0, _, c :: cs => c :: cs
  | f + 1, pat, c :: cs =>
    if pat.isPrefixOf (c :: cs) && !pat.isEmpty then
      removeAllGo f pat (cs.drop (pat.length - 1))
    else c :: removeAllGo f pat cs

/-- Modelled from the spec: remove every occurrence of `pat`. -/
def removeAll (pat s : Str) : Str := removeAllGo s.length pat s

/-- Modelled from the spec: the strip step as the spec's words describe it,
removing every occurrence of the marker text and of `:root`. -/
def stripAllSpec (m sel : Str) : Str := removeAll rootStr (removeAll m sel)

/-! ## Lemmas about the scanners -/

/-- A case-insensitive prefix shorter than `l` only looks at `l`. -/
theorem ciStarts_append_left (w l r : Str) (h : w.length ≤ l.length) :
    ciStarts w (l ++ r) = ciStarts w l := by
  induction w generalizing l with
  | nil => simp [ciStarts]
  | cons p ps ih =>
    cases l with
    | nil => simp at h
    | cons c ls =>
      simp only [List.cons_append, ciStarts]
      congr 1
      exact ih ls (by simpa using h)

/-- Every list is one of its own tails. -/
theorem mem_tails_self (l : Str) : l ∈ l.tails := by
  cases l <;> simp [List.tails]

/-- Tails of the tail are tails. -/
theorem mem_tails_of_tail {u ps : Str} (p : Char) (h : u ∈ ps.tails) :
    u ∈ (p :: ps).tails := by
  rw [List.tails]
  exact List.mem_cons_of_mem _ h

/-- The condition under which a pattern can never match inside the
replacement text: the pattern is at most as long as the replacement and no
nonempty tail of it matches at the head of the replacement. -/
def AvoidsRepl (repl w : Str) : Prop :=
  w.length ≤ repl.length ∧ ∀ u ∈ w.tails, u ≠ [] → ciStarts u repl = false

instance (repl w : Str) : Decidable (AvoidsRepl repl w) := by
  unfold AvoidsRepl; infer_instance

theorem avoidsRepl_tail {repl : Str} {p : Char} {ps : Str}
    (h : AvoidsRepl repl (p :: ps)) : AvoidsRepl repl ps := by
  refine ⟨Nat.le_of_succ_le h.1, fun u hu hne => ?_⟩
  exact h.2 u (mem_tails_of_tail p hu) hne

/-- Transfer of a case-insensitive match backwards through the scanner: if a
pattern that cannot match inside the replacement matches at the head of the
scanner's output, it already matched at the head of the input. -/
theorem ciStarts_scanGo (pats : List Str) (repl : Str) :
    ∀ (f : Nat) (w s : Str), AvoidsRepl repl w →
      ciStarts w (scanGo pats repl f s) = true → ciStarts w s = true := by
  intro f
  induction f with
  | zero =>
    intro w s _ h
    cases s <;> simpa [scanGo] using h
  | succ f ihf =>
    intro w s hw h
    cases s with
    | nil => simpa [scanGo] using h
    | cons c cs =>
      rcases hfind : pats.find? (fun p => ciStarts p (c :: cs)) with _ | p
      · simp only [scanGo, hfind] at h
        cases w with
        | nil => simp [ciStarts]
        | cons q qs =>
          simp only [ciStarts, Bool.and_eq_true] at h ⊢
          exact ⟨h.1, ihf qs cs (avoidsRepl_tail hw) h.2⟩
      · simp only [scanGo, hfind] at h
        cases w with
        | nil => simp [ciStarts]
        | cons q qs =>
          rw [ciStarts_append_left _ _ _ hw.1] at h
          rw [hw.2 (q :: qs) (mem_tails_self _) (by simp)] at h
          exact absurd h (by simp)

/-- Occurrences are preserved under dropping a prefix. -/
theorem hasOcc_drop (q : List Str) :
    ∀ (n : Nat) (s : Str), hasOcc q s = false → hasOcc q (s.drop n) = false := by
  intro n
  induction n with
  | zero => simp
  | succ n ih =>
    intro s h
    cases s with
    | nil => simpa using h
    | cons c cs =>
      simp only [hasOcc, Bool.or_eq_false_iff] at h
      exact ih cs h.2

/-- If none of the checked patterns can match inside or across the
replacement text, the scanner preserves absence of occurrences. -/
theorem scanGo_preserves_noOcc (qpats pats : List Str) (repl : Str)
    (hA : ∀ t, hasOcc qpats (repl ++ t) = hasOcc qpats t)
    (hB : ∀ q ∈ qpats, q ≠ [] ∧ AvoidsRepl repl q.tail) :
    ∀ f s, hasOcc qpats s = false → hasOcc qpats (scanGo pats repl f s) = false := by
  intro f
  induction f with
  | zero =>
    intro s h
    cases s <;> simpa [scanGo] using h
  | succ f ihf =>
    intro s h
    cases s with
    | nil => simpa [scanGo] using h
    | cons c cs =>
      simp only [hasOcc, Bool.or_eq_false_iff] at h
      rcases hfind : pats.find? (fun p => ciStarts p (c :: cs)) with _ | p
      · simp only [scanGo, hfind]
        simp only [hasOcc, Bool.or_eq_false_iff]
        refine ⟨?_, ihf cs h.2⟩
        by_contra hany
        rw [Bool.not_eq_false, List.any_eq_true] at hany
        obtain ⟨q, hqmem, hq⟩ := hany
        obtain ⟨hqne, hqtl⟩ := hB q hqmem
        cases q with
        | nil => exact hqne rfl
        | cons q0 q' =>
          simp only [ciStarts, Bool.and_eq_true] at hq
          have hq' : ciStarts q' cs = true := ciStarts_scanGo pats repl f q' cs hqtl hq.2
          have hc : ciStarts (q0 :: q') (c :: cs) = true := by
            simp only [ciStarts, Bool.and_eq_true]
            exact ⟨hq.1, hq'⟩
          have : (qpats.any (fun p => ciStarts p (c :: cs)) : Bool) = true :=
            List.any_eq_true.mpr ⟨q0 :: q', hqmem, hc⟩
          rw [h.1] at this
          exact absurd this (by simp)
      · simp only [scanGo, hfind]
        rw [hA]
        exact ihf _ (hasOcc_drop qpats _ cs h.2)

/-- The scanner removes every occurrence of its own patterns, provided no
pattern can match inside or across the replacement text. -/
theorem scanGo_removes_own (pats : List Str) (repl : Str)
    (hA : ∀ t, hasOcc pats (repl ++ t) = hasOcc pats t)
    (hB : ∀ q ∈ pats, q ≠ [] ∧ AvoidsRepl repl q.tail) :
    ∀ f s, s.length ≤ f → hasOcc pats (scanGo pats repl f s) = false := by
  intro f
  induction f with
  | zero =>
    intro s hs
    rw [List.length_eq_zero.mp (Nat.le_zero.mp hs)]
    simp [scanGo, hasOcc]
  | succ f ihf =>
    intro s hs
    cases s with
    | nil => simp [scanGo, hasOcc]
    | cons c cs =>
      rcases hfind : pats.find? (fun p => ciStarts p (c :: cs)) with _ | p
      · simp only [scanGo, hfind]
        simp only [hasOcc, Bool.or_eq_false_iff]
        refine ⟨?_, ihf cs (by simpa using Nat.le_of_succ_le_succ hs)⟩
        by_contra hany
        rw [Bool.not_eq_false, List.any_eq_true] at hany
        obtain ⟨q, hqmem, hq⟩ := hany
        obtain ⟨hqne, hqtl⟩ := hB q hqmem
        cases q with
        | nil => exact hqne rfl
        | cons q0 q' =>
          simp only [ciStarts, Bool.and_eq_true] at hq
          have hq' : ciStarts q' cs = true := ciStarts_scanGo pats repl f q' cs hqtl hq.2
          have hc : ciStarts (q0 :: q') (c :: cs) = true := by
            simp only [ciStarts, Bool.and_eq_true]
            exact ⟨hq.1, hq'⟩
          have hnone := List.find?_eq_none.mp hfind (q0 :: q') hqmem
          exact hnone hc
      · simp only [scanGo, hfind]
        rw [hA]
        refine ihf _ (le_trans (by rw [List.length_drop]; omega) (Nat.le_of_succ_le_succ hs))

/-- After the extension pass nothing matches the extension regex any more:
every occurrence was replaced, not just the first. -/
theorem hasExtOcc_replaceExt (s : Str) : hasExtOcc (replaceExt s) = false :=
  scanGo_removes_own extPats webpExt (fun _ => rfl) (by decide) s.length s le_rfl

/-- The MIME pass cannot introduce an extension-regex match. -/
theorem hasExtOcc_replaceMime (s : Str) (h : hasExtOcc s = false) :
    hasExtOcc (replaceMime s) = false :=
  scanGo_preserves_noOcc extPats mimePats mimeWebp (fun _ => rfl) (by decide) s.length s h

/-- After the MIME pass nothing matches the MIME regex any more. -/
theorem hasMimeOcc_replaceMime (s : Str) : hasMimeOcc (replaceMime s) = false :=
  scanGo_removes_own mimePats mimeWebp (fun _ => rfl) (by decide) s.length s le_rfl

/-- The default `rename` leaves no extension-regex occurrence: in particular
the default `predicate` rejects every renamed value. -/
theorem hasExtOcc_renameDefault (v : Str) : hasExtOcc (renameDefault v) = false :=
  hasExtOcc_replaceMime (replaceExt v) (hasExtOcc_replaceExt v)

/-- The default `rename` leaves no MIME-token occurrence. -/
theorem hasMimeOcc_renameDefault (v : Str) : hasMimeOcc (renameDefault v) = false :=
  hasMimeOcc_replaceMime (replaceExt v)

/-! ## Lemmas about first-occurrence replacement and substring search -/

/-- Replacement `replaceFirst` replaces exactly the first occurrence: the string splits
around a leftmost occurrence of the pattern, which is the part replaced. -/
theorem replaceFirst_spec (pat repl : Str) :
    ∀ s : Str, includesSub pat s = true →
      ∃ pre suf, s = pre ++ pat ++ suf ∧
        replaceFirst pat repl s = pre ++ repl ++ suf ∧
        ∀ pre' suf', s = pre' ++ pat ++ suf' → pre.length ≤ pre'.length := by
  intro s
  induction s with
  | nil =>
    intro h
    simp only [includesSub, List.isEmpty_iff] at h
    refine ⟨[], [], by simp [h], ?_, fun pre' suf' _ => Nat.zero_le _⟩
    simp [replaceFirst, h]
  | cons c cs ih =>
    intro h
    by_cases hp : pat.isPrefixOf (c :: cs) = true
    · obtain ⟨t, ht⟩ := List.isPrefixOf_iff_prefix.mp hp
      refine ⟨[], t, by simp [ht.symm], ?_, fun pre' suf' _ => Nat.zero_le _⟩
      simp only [replaceFirst, hp, if_true, List.nil_append]
      rw [← ht, List.drop_left]
    · have hrec : includesSub pat cs = true := by
        have := h
        simp only [includesSub, Bool.or_eq_true] at this
        rcases this with h1 | h2
        · exact absurd h1 hp
        · exact h2
      obtain ⟨pre, suf, hs, hr, hmin⟩ := ih hrec
      refine ⟨c :: pre, suf, by simp [hs], ?_, ?_⟩
      · simp [replaceFirst, hp, hr]
      · intro pre' suf' heq
        cases pre' with
        | nil =>
          exfalso
          apply hp
          exact List.isPrefixOf_iff_prefix.mpr ⟨suf', by simpa using heq.symm⟩
        | cons d pre'' =>
          simp only [List.cons_append, List.cons.injEq] at heq
          simpa using Nat.succ_le_succ (hmin pre'' suf' heq.2)

/-- Replacement `replaceFirst` is the identity when the pattern does not occur. -/
theorem replaceFirst_of_not_contains (pat repl : Str) :
    ∀ s : Str, includesSub pat s = false → replaceFirst pat repl s = s := by
  intro s
  induction s with
  | nil =>
    intro h
    simp only [includesSub] at h
    simp [replaceFirst, h]
  | cons c cs ih =>
    intro h
    simp only [includesSub, Bool.or_eq_false_iff] at h
    simp [replaceFirst, h.1, ih h.2]

/-- The empty pattern occurs everywhere. -/
theorem includesSub_nil (s : Str) : includesSub [] s = true := by
  cases s <;> simp [includesSub, List.isPrefixOf]

/-- A pattern occurs in any string that spells it out. -/
theorem includesSub_at (pat a b : Str) : includesSub pat (a ++ pat ++ b) = true := by
  induction a with
  | nil =>
    simp only [List.nil_append]
    cases hpb : pat ++ b with
    | nil =>
      have hpat : pat = [] := (List.append_eq_nil.mp hpb).1
      rw [hpat]
      simp [includesSub]
    | cons c cs =>
      simp only [includesSub, Bool.or_eq_true]
      left
      rw [← hpb]
      exact List.isPrefixOf_iff_prefix.mpr (List.prefix_append _ _)
  | cons c a ih =>
    simp only [List.cons_append, includesSub, Bool.or_eq_true]
    right
    exact ih

/-- Every transformed selector contains the marker text. -/
theorem transformSelector_contains (m sel : Str) :
    includesSub m (transformSelector m sel) = true := by
  unfold transformSelector placeMarker
  set s := stripOnce m sel with hs
  by_cases hinc : includesSub htmlStr s = true
  · rw [if_pos hinc]
    obtain ⟨pre, suf, _, hr, _⟩ := replaceFirst_spec htmlStr (htmlStr ++ m) s hinc
    rw [hr]
    have hassoc : pre ++ (htmlStr ++ m) ++ suf = (pre ++ htmlStr) ++ m ++ suf := by
      simp [List.append_assoc]
    rw [hassoc]
    exact includesSub_at m (pre ++ htmlStr) suf
  · rw [if_neg hinc]
    by_cases hemp : s.isEmpty = true
    · rw [if_pos hemp]
      have hnil : htmlStr ++ m = htmlStr ++ m ++ [] := by simp
      rw [hnil]
      exact includesSub_at m htmlStr []
    · rw [if_neg hemp]
      exact includesSub_at m htmlStr (' ' :: s)

/-! ## Claims about the declaration classifier and the selector transformer -/

/-- C4: the default rename function replaces every occurrence (not just the
first) of the extension patterns .jpg/.jpeg/.png/.gif/.avif with .webp,
case-insensitively, and every occurrence of the MIME tokens image/jpeg,
image/png, image/gif, image/avif with image/webp: no occurrence of either
regex survives in the renamed value, and a value with several independent
matches has all of them rewritten. -/
theorem claim_C4_rename_every_occurrence :
    (∀ v : Str, hasExtOcc (renameDefault v) = false ∧
      hasMimeOcc (renameDefault v) = false) ∧
    renameDefault
        (str "image-set(url(a.JPG) type(image/jpeg), url(b.png) type(image/PNG)), url(c.gif), d.avif image/avif") =
      str "image-set(url(a.webp) type(image/webp), url(b.webp) type(image/webp)), url(c.webp), d.webp image/webp" :=
  ⟨fun v => ⟨hasExtOcc_renameDefault v, hasMimeOcc_renameDefault v⟩, by decide⟩

/-- C5 counterexample: for the selector list `["x.webp y.webp"]` and marker
class `webp`, the single output selector contains the marker token twice, not
exactly once as the claim states. -/
theorem claim_C5_counterexample :
    transformSelectors false (str "webp") [str "x.webp y.webp"] =
      [str "html.webp x y.webp"] ∧
    countSub (markerOf false (str "webp")) (str "html.webp x y.webp") ≠ 1 := by
  decide

/-- C5 amended: the selector transformer returns a list of the same length as
the input (no selector dropped or merged), and each output selector contains
at least one occurrence of the marker-class token (exactly one does not hold
when the input selector carries extra occurrences of the token). -/
theorem claim_C5_amended (modules : Bool) (cls : Str) (sels : List Str) :
    (transformSelectors modules cls sels).length = sels.length ∧
    (transformSelectors modules cls sels).all
      (fun out => includesSub (markerOf modules cls) out) = true := by
  refine ⟨by simp [transformSelectors], ?_⟩
  rw [List.all_eq_true]
  intro x hx
  obtain ⟨sel, _, rfl⟩ := List.mem_map.mp hx
  exact transformSelector_contains _ sel

/-- C6 counterexample: for the selector `html.webp html.webp` and marker
class `webp` the strip step removes only the first marker occurrence, so the
result contains the `html<marker>` compound twice, not exactly once. -/
theorem claim_C6_counterexample :
    transformSelector (markerOf false (str "webp")) (str "html.webp html.webp") =
      str "html.webp html.webp" ∧
    countSub (htmlStr ++ markerOf false (str "webp"))
      (transformSelector (markerOf false (str "webp")) (str "html.webp html.webp")) ≠ 1 := by
  decide

/-- C6 amended: after the strip step, if the cleaned selector contains
`html`, the marker is inserted immediately after the first (leftmost) `html`
occurrence; else if the cleaned selector is non-empty the result is
`html<marker>`, a space and the cleaned selector; else the result is exactly
`html<marker>`.  (The result need not contain exactly one `html<marker>`
compound when the cleaned selector already contains one.) -/
theorem claim_C6_amended (modules : Bool) (cls : Str) (sel : Str) :
    (includesSub htmlStr (stripOnce (markerOf modules cls) sel) = true →
      ∃ pre suf, stripOnce (markerOf modules cls) sel = pre ++ htmlStr ++ suf ∧
        (∀ pre' suf',
          stripOnce (markerOf modules cls) sel = pre' ++ htmlStr ++ suf' →
            pre.length ≤ pre'.length) ∧
        transformSelector (markerOf modules cls) sel =
          pre ++ htmlStr ++ markerOf modules cls ++ suf) ∧
    (includesSub htmlStr (stripOnce (markerOf modules cls) sel) = false →
      stripOnce (markerOf modules cls) sel ≠ [] →
      transformSelector (markerOf modules cls) sel =
        htmlStr ++ markerOf modules cls ++ ' ' :: stripOnce (markerOf modules cls) sel) ∧
    (stripOnce (markerOf modules cls) sel = [] →
      transformSelector (markerOf modules cls) sel =
        htmlStr ++ markerOf modules cls) := by
  set m := markerOf modules cls with hm
  set s := stripOnce m sel with hs
  refine ⟨?_, ?_, ?_⟩
  · intro hinc
    obtain ⟨pre, suf, hsplit, hr, hmin⟩ := replaceFirst_spec htmlStr (htmlStr ++ m) s hinc
    refine ⟨pre, suf, hsplit, hmin, ?_⟩
    unfold transformSelector placeMarker
    rw [← hs, if_pos hinc, hr]
    simp [List.append_assoc]
  · intro hinc hne
    unfold transformSelector placeMarker
    rw [← hs, if_neg (by simp [hinc]), if_neg (by simp [hne])]
  · intro hnil
    unfold transformSelector placeMarker
    rw [← hs, hnil]
    simp [includesSub, htmlStr]

/-- C6 witness: the three branches at concrete selectors with the default
capable marker class. -/
theorem claim_C6_witness :
    (∃ pre suf, stripOnce (markerOf false (str "webp")) (str "html main") =
        pre ++ htmlStr ++ suf ∧
      (∀ pre' suf',
        stripOnce (markerOf false (str "webp")) (str "html main") =
          pre' ++ htmlStr ++ suf' → pre.length ≤ pre'.length) ∧
      transformSelector (markerOf false (str "webp")) (str "html main") =
        pre ++ htmlStr ++ markerOf false (str "webp") ++ suf) ∧
    transformSelector (markerOf false (str "webp")) (str "main") =
      htmlStr ++ markerOf false (str "webp") ++
        ' ' :: stripOnce (markerOf false (str "webp")) (str "main") ∧
    transformSelector (markerOf false (str "webp")) (str ":root") =
      htmlStr ++ markerOf false (str "webp") :=
  ⟨(claim_C6_amended false (str "webp") (str "html main")).1 (by decide),
   (claim_C6_amended false (str "webp") (str "main")).2.1 (by decide) (by decide),
   (claim_C6_amended false (str "webp") (str ":root")).2.2 (by decide)⟩

/-- C7 counterexample: the strip step removes only the first occurrence of
the marker token, not every occurrence: on the selector `.webp.webp a` the
code's output differs from the output the claim's every-occurrence strip
would give. -/
theorem claim_C7_counterexample :
    transformSelector (markerOf false (str "webp")) (str ".webp.webp a") =
      str "html.webp .webp a" ∧
    placeMarker (markerOf false (str "webp"))
        (stripAllSpec (markerOf false (str "webp")) (str ".webp.webp a")) =
      str "html.webp  a" ∧
    transformSelector (markerOf false (str "webp")) (str ".webp.webp a") ≠
      placeMarker (markerOf false (str "webp"))
        (stripAllSpec (markerOf false (str "webp")) (str ".webp.webp a")) := by
  decide

/-- C7 amended: the selector transformer first removes the first occurrence
of the exact marker-class token and the first occurrence of `:root` (not
every occurrence) before applying the html-insertion logic. -/
theorem claim_C7_amended (modules : Bool) (cls : Str) (sel : Str) :
    transformSelector (markerOf modules cls) sel =
      placeMarker (markerOf modules cls)
        (replaceFirst rootStr []
          (replaceFirst (markerOf modules cls) [] sel)) ∧
    (includesSub (markerOf modules cls) sel = true →
      ∃ pre suf, sel = pre ++ markerOf modules cls ++ suf ∧
        (∀ pre' suf', sel = pre' ++ markerOf modules cls ++ suf' →
          pre.length ≤ pre'.length) ∧
        replaceFirst (markerOf modules cls) [] sel = pre ++ suf) ∧
    (includesSub (markerOf modules cls) sel = false →
      replaceFirst (markerOf modules cls) [] sel = sel) := by
  refine ⟨rfl, ?_, replaceFirst_of_not_contains _ _ sel⟩
  intro hinc
  obtain ⟨pre, suf, hsplit, hr, hmin⟩ :=
    replaceFirst_spec (markerOf modules cls) [] sel hinc
  exact ⟨pre, suf, hsplit, hmin, by simpa using hr⟩

/-- C7 witness: at a concrete selector containing the marker once, the strip
removes it; at one without it, the strip is the identity. -/
theorem claim_C7_witness :
    (∃ pre suf, str "a.webp b" = pre ++ markerOf false (str "webp") ++ suf ∧
      (∀ pre' suf', str "a.webp b" = pre' ++ markerOf false (str "webp") ++ suf' →
        pre.length ≤ pre'.length) ∧
      replaceFirst (markerOf false (str "webp")) [] (str "a.webp b") = pre ++ suf) ∧
    replaceFirst (markerOf false (str "webp")) [] (str "main") = str "main" :=
  ⟨(claim_C7_amended false (str "webp") (str "a.webp b")).2.1 (by decide),
   (claim_C7_amended false (str "webp") (str "main")).2.2 (by decide)⟩

/-! ## The `OnceExit` insertion phase -/

/-- Insertion walks past nodes with a different identity. -/
theorem insertAfterId_skip (i : Nat) (x : StyleRule) (n : Node) (ns : List Node)
    (h : n.1 ≠ some i) : insertAfterId i x (n :: ns) = n :: insertAfterId i x ns := by
  simp [insertAfterId, h]

/-- Insertion walks past a whole prefix free of the anchor identity. -/
theorem insertAfterId_append (i : Nat) (x : StyleRule) (pre post : List Node)
    (h : ∀ nd ∈ pre, nd.1 ≠ some i) :
    insertAfterId i x (pre ++ post) = pre ++ insertAfterId i x post := by
  induction pre with
  | nil => simp
  | cons n pre ih =>
    rw [List.cons_append, insertAfterId_skip i x n _ (h n (by simp)),
      ih (fun nd hnd => h nd (by simp [hnd])), List.cons_append]

theorem insPhase_cons (p : Nat × StyleRule) (ps : List (Nat × StyleRule)) (d : List Node) :
    insPhase (p :: ps) d = insPhase ps (insertAfterId p.1 p.2 d) := rfl

theorem insPhase_append_maps (a b : List (Nat × StyleRule)) (d : List Node) :
    insPhase (a ++ b) d = insPhase b (insPhase a d) :=
  List.foldl_append _ _ _ _

/-- A whole insertion phase walks past a prefix free of its anchor
identities. -/
theorem insPhase_passes (ps : List (Nat × StyleRule)) :
    ∀ (pre post : List Node), (∀ p ∈ ps, ∀ nd ∈ pre, nd.1 ≠ some p.1) →
      insPhase ps (pre ++ post) = pre ++ insPhase ps post := by
  induction ps with
  | nil => intro pre post _; rfl
  | cons p ps ih =>
    intro pre post h
    rw [insPhase_cons, insertAfterId_append p.1 p.2 pre post (h p (by simp)),
      ih pre _ (fun q hq => h q (by simp [hq])), ← insPhase_cons]

/-- Identities recorded in a variant map are at least the starting index. -/
theorem mem_varMapOf_ge (pick : Triple → Option StyleRule) :
    ∀ (ts : List Triple) (k : Nat) (p : Nat × StyleRule),
      p ∈ varMapOf pick k ts → k ≤ p.1 := by
  intro ts
  induction ts with
  | nil => intro k p h; simp [varMapOf] at h
  | cons t ts ih =>
    intro k p h
    simp only [varMapOf, List.mem_append] at h
    rcases h with h | h
    · cases hp : pick t with
      | none => rw [hp] at h; simp [optPair] at h
      | some r =>
        rw [hp] at h
        simp only [optPair, List.mem_singleton] at h
        rw [h]
    · exact Nat.le_of_succ_le (ih (k + 1) p h)

/-- Nodes of an optional variant never carry an anchor identity. -/
theorem mem_optNodes_none (X : Option StyleRule) (nd : Node) (h : nd ∈ optNodes X) :
    nd.1 = none := by
  cases X with
  | none => simp [optNodes] at h
  | some r =>
    simp only [optNodes, Option.toList_some, List.map_cons, List.map_nil,
      List.mem_singleton] at h
    rw [h]

/-- Inserting an optional variant right after its anchor at the head. -/
theorem insPhase_optPair (k : Nat) (X : Option StyleRule) (s : StyleRule) (rest : List Node) :
    insPhase (optPair k X) ((some k, s) :: rest) = (some k, s) :: optNodes X ++ rest := by
  cases X with
  | none => simp [optPair, optNodes, insPhase]
  | some n => simp [optPair, optNodes, insPhase, insPhase_cons, insertAfterId]

/-- Running the two insertion phases on the walked document produces the
per-rule blocks: stripped original, capable (webp) variant, fallback
(no-webp) variant, in walk order. -/
theorem insPhase_nodesBlocks :
    ∀ (ts : List Triple) (k : Nat),
      insPhase (varMapOf (fun t => t.2.2) k ts)
          (insPhase (varMapOf (fun t => t.2.1) k ts) (docOf k ts)) =
        nodesBlocks k ts := by
  intro ts
  induction ts with
  | nil => intro k; rfl
  | cons t ts ih =>
    intro k
    have hpass : ∀ (pick : Triple → Option StyleRule) (pre : List Node) post,
        (∀ nd ∈ pre, nd.1 = some k ∨ nd.1 = none) →
        insPhase (varMapOf pick (k + 1) ts) (pre ++ post) =
          pre ++ insPhase (varMapOf pick (k + 1) ts) post := by
      intro pick pre post hpre
      refine insPhase_passes _ pre post ?_
      intro p hp nd hnd
      have hk := mem_varMapOf_ge pick ts (k + 1) p hp
      rcases hpre nd hnd with h | h <;> rw [h]
      · intro hc
        have : k = p.1 := by injection hc
        omega
      · exact fun hc => Option.noConfusion hc
    have hside1 : ∀ nd ∈ ((some k, t.1) :: optNodes t.2.1 : List Node),
        nd.1 = some k ∨ nd.1 = none := by
      intro nd hnd
      rcases List.mem_cons.mp hnd with h | h
      · left; rw [h]
      · right; exact mem_optNodes_none _ _ h
    have hside2 : ∀ nd ∈ ((some k, t.1) :: (optNodes t.2.2 ++ optNodes t.2.1) : List Node),
        nd.1 = some k ∨ nd.1 = none := by
      intro nd hnd
      rcases List.mem_cons.mp hnd with h | h
      · left; rw [h]
      · rcases List.mem_append.mp h with h2 | h2
        · right; exact mem_optNodes_none _ _ h2
        · right; exact mem_optNodes_none _ _ h2
    calc insPhase (varMapOf (fun t => t.2.2) k (t :: ts))
          (insPhase (varMapOf (fun t => t.2.1) k (t :: ts)) (docOf k (t :: ts)))
        = insPhase (varMapOf (fun t => t.2.2) k (t :: ts))
            (insPhase (varMapOf (fun t => t.2.1) (k + 1) ts)
              (insPhase (optPair k t.2.1) ((some k, t.1) :: docOf (k + 1) ts))) := by
          rw [show varMapOf (fun t => t.2.1) k (t :: ts) =
              optPair k t.2.1 ++ varMapOf (fun t => t.2.1) (k + 1) ts from rfl,
            insPhase_append_maps]
          rfl
      _ = insPhase (varMapOf (fun t => t.2.2) k (t :: ts))
            (((some k, t.1) :: optNodes t.2.1) ++
              insPhase (varMapOf (fun t => t.2.1) (k + 1) ts) (docOf (k + 1) ts)) := by
          rw [insPhase_optPair,
            show (some k, t.1) :: optNodes t.2.1 ++ docOf (k + 1) ts =
              ((some k, t.1) :: optNodes t.2.1) ++ docOf (k + 1) ts from rfl,
            hpass _ _ _ hside1]
      _ = insPhase (varMapOf (fun t => t.2.2) (k + 1) ts)
            (insPhase (optPair k t.2.2)
              (((some k, t.1) :: optNodes t.2.1) ++
                insPhase (varMapOf (fun t => t.2.1) (k + 1) ts) (docOf (k + 1) ts))) := by
          rw [show varMapOf (fun t => t.2.2) k (t :: ts) =
              optPair k t.2.2 ++ varMapOf (fun t => t.2.2) (k + 1) ts from rfl,
            insPhase_append_maps]
      _ = insPhase (varMapOf (fun t => t.2.2) (k + 1) ts)
            (((some k, t.1) :: (optNodes t.2.2 ++ optNodes t.2.1)) ++
              insPhase (varMapOf (fun t => t.2.1) (k + 1) ts) (docOf (k + 1) ts)) := by
          rw [show ((some k, t.1) :: optNodes t.2.1) ++
              insPhase (varMapOf (fun t => t.2.1) (k + 1) ts) (docOf (k + 1) ts) =
              (some k, t.1) :: (optNodes t.2.1 ++
                insPhase (varMapOf (fun t => t.2.1) (k + 1) ts) (docOf (k + 1) ts)) from rfl,
            insPhase_optPair]
          congr 1
          simp [List.append_assoc]
      _ = ((some k, t.1) :: (optNodes t.2.2 ++ optNodes t.2.1)) ++
            insPhase (varMapOf (fun t => t.2.2) (k + 1) ts)
              (insPhase (varMapOf (fun t => t.2.1) (k + 1) ts) (docOf (k + 1) ts)) := by
          rw [hpass _ _ _ hside2]
      _ = nodesBlocks k (t :: ts) := by
          show _ = ((some k, t.1) :: (optNodes t.2.2 ++ optNodes t.2.1)) ++ nodesBlocks (k + 1) ts
          rw [ih (k + 1)]

/-- Mapping the rules out of an optional variant's nodes. -/
theorem optNodes_snd (X : Option StyleRule) : (optNodes X).map Prod.snd = X.toList := by
  cases X <;> simp [optNodes]

/-- The rule content of the node blocks. -/
theorem nodesBlocks_snd :
    ∀ (ts : List Triple) (k : Nat),
      (nodesBlocks k ts).map Prod.snd =
        (ts.map (fun t => t.1 :: (t.2.2.toList ++ t.2.1.toList))).flatten := by
  intro ts
  induction ts with
  | nil => intro k; rfl
  | cons t ts ih =>
    intro k
    simp only [nodesBlocks, List.map_cons, List.flatten_cons, List.map_append,
      optNodes_snd, List.cons_append, ih (k + 1)]

/-- The whole transform, characterised rule by rule: the output document is
the concatenation, over the original rules in document order, of the
stripped original, then the capable (webp) variant if produced, then the
fallback (no-webp) variant if produced. -/
theorem transformRoot_eq_blocks (o : Options) (rules : List StyleRule) :
    transformRoot o rules = (rules.map (ruleBlock o)).flatten := by
  show (insPhase (varMapOf (fun t => t.2.2) 0 (rules.map (visitRule o)))
      (insPhase (varMapOf (fun t => t.2.1) 0 (rules.map (visitRule o)))
        (docOf 0 (rules.map (visitRule o))))).map Prod.snd = _
  rw [insPhase_nodesBlocks, nodesBlocks_snd, List.map_map]
  rfl

/-! ## Claims about the visit hook and the finalize phase -/

/-- C1 counterexample: on `section { background: url(./image.png); color:
red; }` with default options, the document order after the transform is
stripped original, capable (webp) variant, fallback (no-webp) variant — not
original, fallback, capable as the claim states. -/
theorem claim_C1_counterexample :
    transformRoot defaultOptions
        [⟨[str "section"],
          [⟨str "background", str "url(./image.png)"⟩, ⟨str "color", str "red"⟩]⟩] =
      [⟨[str "section"], [⟨str "color", str "red"⟩]⟩,
       ⟨[str "html.webp section"], [⟨str "background", str "url(./image.webp)"⟩]⟩,
       ⟨[str "html.no-webp section"], [⟨str "background", str "url(./image.png)"⟩]⟩] ∧
    transformRoot defaultOptions
        [⟨[str "section"],
          [⟨str "background", str "url(./image.png)"⟩, ⟨str "color", str "red"⟩]⟩] ≠
      [⟨[str "section"], [⟨str "color", str "red"⟩]⟩,
       ⟨[str "html.no-webp section"], [⟨str "background", str "url(./image.png)"⟩]⟩,
       ⟨[str "html.webp section"], [⟨str "background", str "url(./image.webp)"⟩]⟩] := by
  decide

/-- C1 amended: for every option set and every flat document, after the
finalize phase the sibling order per original rule is: the stripped
original, then the capable (webp) variant if produced, then the fallback
(no-webp) variant if produced — capable before fallback. -/
theorem claim_C1_amended (o : Options) (rules : List StyleRule) :
    transformRoot o rules =
      (rules.map (fun r =>
        (visitRule o r).1 ::
          ((visitRule o r).2.2.toList ++ (visitRule o r).2.1.toList))).flatten := by
  simpa [ruleBlock] using transformRoot_eq_blocks o rules

/-- C2: the end-to-end example.  `section { background: url(./image.png);
color: red; }` with default options becomes `section { color: red; }`, then
`html.webp section { background: url(./image.webp); }`, then
`html.no-webp section { background: url(./image.png); }`, in that order. -/
theorem claim_C2_end_to_end :
    transformRoot defaultOptions
        [⟨[str "section"],
          [⟨str "background", str "url(./image.png)"⟩, ⟨str "color", str "red"⟩]⟩] =
      [⟨[str "section"], [⟨str "color", str "red"⟩]⟩,
       ⟨[str "html.webp section"], [⟨str "background", str "url(./image.webp)"⟩]⟩,
       ⟨[str "html.no-webp section"], [⟨str "background", str "url(./image.png)"⟩]⟩] := by
  decide

/-- C8: non-matching declarations stay in place in their original relative
order (the stripped rule keeps exactly the declarations rejected by the
predicate, in order), and a rule with no matching declarations produces no
variant-map entries and is left completely unmodified. -/
theorem claim_C8_frame (o : Options) (r : StyleRule) :
    (includesSub ('.' :: o.noWebpClass) (selectorStr r) = false →
      (visitRule o r).1 =
        { r with decls := r.decls.filter (fun d => !(o.predicate d)) }) ∧
    (r.decls.filter (fun d => o.predicate d) = [] →
      visitRule o r = (r, none, none)) := by
  constructor
  · intro h
    unfold visitRule
    rw [if_neg (by simp [h])]
  · intro h
    unfold visitRule
    by_cases hg : includesSub ('.' :: o.noWebpClass) (selectorStr r) = true
    · rw [if_pos hg]
    · rw [if_neg hg]
      have hall : ∀ d ∈ r.decls, o.predicate d = false := by
        intro d hd
        have := List.filter_eq_nil_iff.mp h d hd
        simpa using this
      have hkept : r.decls.filter (fun d => !(o.predicate d)) = r.decls :=
        List.filter_eq_self.mpr (fun d hd => by simp [hall d hd])
      simp only [h, hkept, List.isEmpty_nil, if_true]

/-- C8 witness: a mixed rule keeps only its non-matching declaration, and a
rule with no matching declaration is untouched with no variants. -/
theorem claim_C8_witness :
    (visitRule defaultOptions
        ⟨[str "section"],
          [⟨str "background", str "url(./image.png)"⟩, ⟨str "color", str "red"⟩]⟩).1 =
      { selectors := [str "section"],
        decls := [⟨str "background", str "url(./image.png)"⟩,
          ⟨str "color", str "red"⟩].filter
            (fun d => !(defaultOptions.predicate d)) } ∧
    visitRule defaultOptions ⟨[str "section"], [⟨str "position", str "relative"⟩]⟩ =
      (⟨[str "section"], [⟨str "position", str "relative"⟩]⟩, none, none) :=
  ⟨(claim_C8_frame defaultOptions _).1 (by decide),
   (claim_C8_frame defaultOptions _).2 (by decide)⟩

/-- C9: when the addNoJs option is set and a fallback variant is produced,
its selector list is the transformer output for the fallback marker class
followed by the transformer output for the no-script marker class. -/
theorem claim_C9_addNoJs (o : Options) (r nr : StyleRule)
    (ha : o.addNoJs = true) (h : (visitRule o r).2.1 = some nr) :
    nr.selectors =
      transformSelectors o.modules o.noWebpClass r.selectors ++
        transformSelectors o.modules o.noJsClass r.selectors := by
  unfold visitRule at h
  by_cases hg : includesSub ('.' :: o.noWebpClass) (selectorStr r) = true
  · rw [if_pos hg] at h
    exact absurd h (by simp)
  · rw [if_neg hg] at h
    simp only at h
    by_cases hm : (r.decls.filter (fun d => o.predicate d)).isEmpty = true
    · rw [if_pos hm] at h
      exact absurd h (by simp)
    · rw [if_neg hm] at h
      have := (Option.some.injEq _ _).mp h
      rw [← this, ha, if_pos rfl]

/-- C9 witness: with `addNoJs := true` the fallback rule for
`section { background: url(./image.png); }` carries both the `no-webp` and
the `no-js` selector. -/
theorem claim_C9_witness :
    (⟨[str "html.no-webp section", str "html.no-js section"],
        [⟨str "background", str "url(./image.png)"⟩]⟩ : StyleRule).selectors =
      transformSelectors ({ addNoJs := true } : Options).modules
          ({ addNoJs := true } : Options).noWebpClass [str "section"] ++
        transformSelectors ({ addNoJs := true } : Options).modules
          ({ addNoJs := true } : Options).noJsClass [str "section"] :=
  claim_C9_addNoJs { addNoJs := true }
    ⟨[str "section"], [⟨str "background", str "url(./image.png)"⟩]⟩
    ⟨[str "html.no-webp section", str "html.no-js section"],
      [⟨str "background", str "url(./image.png)"⟩]⟩
    rfl (by decide)

/-- C10: a rule whose selector string contains `.` followed by the fallback
class name — even merely as a substring of a longer token — is skipped by
the visit hook: the rule is left unmodified and no variant rules are
produced. -/
theorem claim_C10_guard_substring (o : Options) (r : StyleRule)
    (h : includesSub ('.' :: o.noWebpClass) (selectorStr r) = true) :
    visitRule o r = (r, none, none) := by
  unfold visitRule
  rw [if_pos h]

/-- C10 witness: the selector `.no-webp-banner main` does not carry the exact
fallback marker token `.no-webp` as a component, yet the guard fires and the
rule (with a matching declaration) is left untouched with no variants. -/
theorem claim_C10_witness :
    includesSub ('.' :: defaultOptions.noWebpClass)
        (selectorStr ⟨[str ".no-webp-banner main"],
          [⟨str "background", str "url(./image.png)"⟩]⟩) = true ∧
    visitRule defaultOptions
        ⟨[str ".no-webp-banner main"], [⟨str "background", str "url(./image.png)"⟩]⟩ =
      (⟨[str ".no-webp-banner main"], [⟨str "background", str "url(./image.png)"⟩]⟩,
        none, none) :=
  ⟨by decide, claim_C10_guard_substring defaultOptions _ (by decide)⟩

/-! ## Idempotence of the transform (default options) -/

/-- The re-entrancy guard: a rule whose selector string contains the fallback
marker text is returned untouched with no variants. -/
theorem visitRule_of_guard (o : Options) (r : StyleRule)
    (h : includesSub ('.' :: o.noWebpClass) (selectorStr r) = true) :
    visitRule o r = (r, none, none) := by
  unfold visitRule
  rw [if_pos h]

/-- A rule all of whose declarations fail the predicate is returned untouched
with no variants. -/
theorem visitRule_of_all_false (o : Options) (r : StyleRule)
    (h : ∀ d ∈ r.decls, o.predicate d = false) :
    visitRule o r = (r, none, none) := by
  unfold visitRule
  by_cases hg : includesSub ('.' :: o.noWebpClass) (selectorStr r) = true
  · rw [if_pos hg]
  · rw [if_neg hg]
    have hmt : r.decls.filter (fun d => o.predicate d) = [] :=
      List.filter_eq_nil_iff.mpr (fun d hd => by simp [h d hd])
    have hkept : r.decls.filter (fun d => !(o.predicate d)) = r.decls :=
      List.filter_eq_self.mpr (fun d hd => by simp [h d hd])
    simp only [hmt, hkept, List.isEmpty_nil, if_true]

/-- A rule the visit hook leaves untouched contributes a singleton block. -/
theorem ruleBlock_eq_of_visit (o : Options) (r : StyleRule)
    (h : visitRule o r = (r, none, none)) : ruleBlock o r = [r] := by
  unfold ruleBlock
  rw [h]
  rfl

/-- An occurrence survives appending on the right. -/
theorem includesSub_extend_right (pat s t : Str) (h : includesSub pat s = true) :
    includesSub pat (s ++ t) = true := by
  obtain ⟨pre, suf, hsplit, _, _⟩ := replaceFirst_spec pat pat s h
  rw [hsplit]
  have hassoc : (pre ++ pat ++ suf) ++ t = pre ++ pat ++ (suf ++ t) := by
    simp [List.append_assoc]
  rw [hassoc]
  exact includesSub_at pat pre (suf ++ t)

/-- An occurrence in the first selector survives joining the selector
list. -/
theorem includesSub_joinSels_head (pat s : Str) (ss : List Str)
    (h : includesSub pat s = true) :
    includesSub pat (joinSels (s :: ss)) = true := by
  cases ss with
  | nil => simpa [joinSels] using h
  | cons s' ss' =>
    rw [joinSels]
    exact includesSub_extend_right _ _ _ h

/-- The stripped original never matches again: its remaining declarations all
fail the predicate, so visiting it a second time changes nothing. -/
theorem ruleBlock_stripped (o : Options) (r : StyleRule) :
    ruleBlock o (visitRule o r).1 = [(visitRule o r).1] := by
  by_cases hg : includesSub ('.' :: o.noWebpClass) (selectorStr r) = true
  · rw [visitRule_of_guard o r hg]
    exact ruleBlock_eq_of_visit o r (visitRule_of_guard o r hg)
  · have h1 : (visitRule o r).1 =
        { r with decls := r.decls.filter (fun d => !(o.predicate d)) } := by
      unfold visitRule
      rw [if_neg hg]
    rw [h1]
    apply ruleBlock_eq_of_visit
    apply visitRule_of_all_false
    intro d hd
    have := (List.mem_filter.mp hd).2
    simpa using this

/-- The capable (webp) variant never matches again under the default options:
all of its declaration values are renamed, and the default predicate rejects
every renamed value. -/
theorem ruleBlock_capable_default (r x : StyleRule)
    (hx : (visitRule defaultOptions r).2.2 = some x) :
    ruleBlock defaultOptions x = [x] := by
  apply ruleBlock_eq_of_visit
  apply visitRule_of_all_false
  intro d hd
  unfold visitRule at hx
  by_cases hg : includesSub ('.' :: defaultOptions.noWebpClass) (selectorStr r) = true
  · rw [if_pos hg] at hx
    exact absurd hx (by simp)
  · rw [if_neg hg] at hx
    simp only at hx
    by_cases hm : (r.decls.filter (fun d => defaultOptions.predicate d)).isEmpty = true
    · rw [if_pos hm] at hx
      exact absurd hx (by simp)
    · rw [if_neg hm] at hx
      have hxv := (Option.some.injEq _ _).mp hx
      rw [← hxv] at hd
      simp only at hd
      obtain ⟨d0, _, rfl⟩ := List.mem_map.mp hd
      show hasExtOcc (renameDefault d0.value) = false
      exact hasExtOcc_renameDefault d0.value

/-- The fallback (no-webp) variant of a rule with a nonempty selector list is
skipped by the guard on a second run: every one of its selectors carries the
fallback marker. -/
theorem ruleBlock_fallback_default (r x : StyleRule) (hsel : r.selectors ≠ [])
    (hx : (visitRule defaultOptions r).2.1 = some x) :
    ruleBlock defaultOptions x = [x] := by
  apply ruleBlock_eq_of_visit
  apply visitRule_of_guard
  unfold visitRule at hx
  by_cases hg : includesSub ('.' :: defaultOptions.noWebpClass) (selectorStr r) = true
  · rw [if_pos hg] at hx
    exact absurd hx (by simp)
  · rw [if_neg hg] at hx
    simp only at hx
    by_cases hm : (r.decls.filter (fun d => defaultOptions.predicate d)).isEmpty = true
    · rw [if_pos hm] at hx
      exact absurd hx (by simp)
    · rw [if_neg hm] at hx
      have hxv := (Option.some.injEq _ _).mp hx
      rw [← hxv]
      cases hrs : r.selectors with
      | nil => exact absurd hrs hsel
      | cons s0 ss =>
        show includesSub ('.' :: defaultOptions.noWebpClass)
          (joinSels
            (transformSelector (markerOf defaultOptions.modules
                defaultOptions.noWebpClass) s0 ::
              ss.map (transformSelector (markerOf defaultOptions.modules
                defaultOptions.noWebpClass)) ++ [])) = true
        rw [List.append_nil]
        apply includesSub_joinSels_head
        exact transformSelector_contains
          (markerOf defaultOptions.modules defaultOptions.noWebpClass) s0

/-- Blocks of already-fixed rules flatten to the original list. -/
theorem flatten_ruleBlock_fixed (o : Options) :
    ∀ L : List StyleRule, (∀ x ∈ L, ruleBlock o x = [x]) →
      (L.map (ruleBlock o)).flatten = L := by
  intro L
  induction L with
  | nil => intro _; rfl
  | cons a L ih =>
    intro h
    simp only [List.map_cons, List.flatten_cons, h a (by simp)]
    rw [ih (fun x hx => h x (by simp [hx]))]
    rfl

/-- C3: running the transform a second time over its own output (default
options) changes nothing, and the re-entrancy guard skips any rule whose
selector already contains the fallback marker token. -/
theorem claim_C3_idempotent (rules : List StyleRule)
    (h : ∀ r ∈ rules, r.selectors ≠ []) :
    transformRoot defaultOptions (transformRoot defaultOptions rules) =
        transformRoot defaultOptions rules ∧
      ∀ r : StyleRule,
        includesSub ('.' :: defaultOptions.noWebpClass) (selectorStr r) = true →
          visitRule defaultOptions r = (r, none, none) := by
  constructor
  · rw [transformRoot_eq_blocks defaultOptions (transformRoot defaultOptions rules)]
    apply flatten_ruleBlock_fixed
    intro x hx
    rw [transformRoot_eq_blocks] at hx
    obtain ⟨blk, hblk, hxblk⟩ := List.mem_flatten.mp hx
    obtain ⟨r, hr, rfl⟩ := List.mem_map.mp hblk
    unfold ruleBlock at hxblk
    rcases List.mem_cons.mp hxblk with hxs | hxv
    · rw [hxs]
      exact ruleBlock_stripped defaultOptions r
    · rcases List.mem_append.mp hxv with hxw | hxn
      · exact ruleBlock_capable_default r x
          (by rwa [← Option.mem_def, ← Option.mem_toList])
      · exact ruleBlock_fallback_default r x (h r hr)
          (by rwa [← Option.mem_def, ← Option.mem_toList])
  · intro r hr
    exact visitRule_of_guard defaultOptions r hr

/-- C3 witness: the transform of the end-to-end example is a fixed point. -/
theorem claim_C3_witness :
    transformRoot defaultOptions (transformRoot defaultOptions
        [⟨[str "section"],
          [⟨str "background", str "url(./image.png)"⟩, ⟨str "color", str "red"⟩]⟩]) =
      transformRoot defaultOptions
        [⟨[str "section"],
          [⟨str "background", str "url(./image.png)"⟩, ⟨str "color", str "red"⟩]⟩] :=
  (claim_C3_idempotent _ (by decide)).1

example : replaceExt (str "url(./image.png)") = str "url(./image.webp)" := by decide

example :
    renameDefault (str "image-set(url(a.JPG) type(image/jpeg), url(b.png) 2x)") =
      str "image-set(url(a.webp) type(image/webp), url(b.webp) 2x)" := by decide

example :
    transformSelectors false (str "webp") [str "section", str "html main", str ":root"] =
      [str "html.webp section", str "html.webp main", str "html.webp"] := by decide

end WebpPlugin
